import Mathlib

/-!
Verification development for app.py, a single-file voice registration and
matching application.  The program keeps a sqlite catalog of
(name, filename) rows, an uploads directory of audio files, and matches a
query recording against candidates by Euclidean distance between MFCC-mean
fingerprints.

Modelling conventions (shallow embedding):

* The filesystem is a list of the paths of the files that exist
  (`List String`).  Writing a file appends its path; file contents are not
  modelled (no claim depends on them).  Paths are taken to be already in
  canonical absolute form, so `os.path.abspath` is the identity on them.
  `pathlib.Path(".")` (the parent of a bare file name) is represented by
  the empty string, and joining with it returns the name unchanged, which
  matches how such paths print in Python.
* The sqlite table `voices` is a list of (name, filename) rows in
  insertion order; the autoincrement id is the list position.  The UNIQUE
  constraint on filename together with INSERT OR IGNORE is modelled inside
  `save_voice`.
* Python strings are Lean `String`s; the string methods used by the script
  (lower, endswith, startswith, basename/stem/suffix splitting and string
  sorting) are re-implemented below over `List Char` so that every
  predicate is executable and kernel-reducible.  Python sorting is stable,
  so `list.sort` / `sorted` are modelled with the stable
  `List.insertionSort`.
* Python floats are idealised as real numbers.  The librosa decoder and
  MFCC computation are external collaborators and enter as oracle
  parameters (`load`, `mfccOf`); everything the script itself computes
  from their output is modelled exactly.
* A caught-and-ignored exception around a fallible external call is
  modelled by the call returning `Option`, with `none` for the failure
  branch.
-/

namespace VoiceApp

/-! Character and string helpers modelling the Python string methods used
by the script. -/

def strToLower (s : String) : String :=
  (s.toList.map Char.toLower).asString

def strEndsWith (s t : String) : Bool :=
  List.isSuffixOf t.toList s.toList

def strStartsWith (s t : String) : Bool :=
  List.isPrefixOf t.toList s.toList

/-- Lexicographic code-point comparison of character lists, modelling how
Python compares strings. -/
def charListLe : List Char → List Char → Bool
  | [], _ => true
  | _ :: _, [] => false
  | a :: as, b :: bs =>
    if a.toNat < b.toNat then true
    else if b.toNat < a.toNat then false
    else charListLe as bs

def pyStrLe (a b : String) : Bool := charListLe a.toList b.toList

/-- Final path component, as in `os.path.basename` and `pathlib` `name`
(the part after the last slash). -/
def baseName (s : String) : String :=
  ((s.toList.reverse.takeWhile (fun c => c != '/')).reverse).asString

/-- Directory part of a path, as in `pathlib` `parent`; the empty string
stands for the current directory. -/
def dirName (s : String) : String :=
  ((s.toList.reverse.dropWhile (fun c => c != '/')).reverse.dropLast).asString

/-- Joining a parent directory and a file name; joining with the
current-directory parent returns the name unchanged. -/
def joinPath (parent name : String) : String :=
  if parent = "" then name else parent ++ "/" ++ name

/-- Splitting a file NAME (no directory part) into stem and suffix,
following the pathlib rule: the suffix starts at the last dot, provided
that dot is neither the first nor the last character of the name. -/
def pathSplitExt (name : List Char) : List Char × List Char :=
  match name.reverse.findIdx? (fun c => c = '.') with
  | none => (name, [])
  | some j =>
    let i := name.length - 1 - j
    if 0 < i ∧ i < name.length - 1 then (name.take i, name.drop i) else (name, [])

/-- Stem of a file name (pathlib `stem`). -/
def pathStem (name : String) : String :=
  (pathSplitExt name.toList).1.asString

/-- Suffix of a file name, dot included (pathlib `suffix`). -/
def pathSuffix (name : String) : String :=
  (pathSplitExt name.toList).2.asString

/-! Configuration constants of app.py. -/

def UPLOAD_DIR : String := "uploads"

/-- The supported audio extension tuple, kept verbatim from the source,
including its duplicated ".wav" entry. -/
def ALLOWED_AUDIO_EXTS : List String :=
  [".wav", ".mp3", ".ogg", ".flac", ".m4a", ".wav"]

/-! Database layer.  A row is (name, filename). -/

abbrev VoiceRow := String × String

/-- INSERT OR IGNORE into a table whose filename column is UNIQUE: the row
is appended only when no row with that filename exists yet. -/
def save_voice (db : List VoiceRow) (name file_path : String) : List VoiceRow :=
  if db.any (fun r => r.2 == file_path) then db else db ++ [(name, file_path)]

def get_all_db_rows (db : List VoiceRow) : List VoiceRow := db

def file_registered_in_db (db : List VoiceRow) (file_path : String) : Bool :=
  db.any (fun r => r.2 == file_path)

/-! File helpers. -/

/-- The candidate path tried by unique_path for a given counter value:
parent / (stem ++ "_" ++ counter ++ ext). -/
def mkCand (parent stem e : String) (counter : Nat) : String :=
  joinPath parent (stem ++ "_" ++ Nat.repr counter ++ e)

/-- The while loop of unique_path: while the current candidate exists,
move to the next numbered candidate.  The loop of the source is fueled
here; unique_path supplies enough fuel for the loop to always finish
(proved below). -/
def uniquePathAux (fs : List String) (parent stem e : String) :
    Nat → String → Nat → Option String
  | 0, _, _ => none
  | fuel + 1, p, counter =>
    if p ∈ fs then
      uniquePathAux fs parent stem e fuel (mkCand parent stem e counter) (counter + 1)
    else some p

def unique_path (fs : List String) (target : String) : Option String :=
  uniquePathAux fs (dirName target) (pathStem (baseName target))
    (pathSuffix (baseName target)) (fs.length + 2) target 1

/-- Total version of unique_path.  The default value is never used: the
fuel given in unique_path provably suffices (unique_path_isSome below). -/
def unique_pathT (fs : List String) (target : String) : String :=
  (unique_path fs target).getD target

/-- Saving an uploaded file: basename of the upload name, joined to the
destination directory, disambiguated by unique_path, then written. -/
def save_uploaded_file (fs : List String) (upload_name dest_dir : String) :
    List String × String :=
  let safe_name := baseName upload_name
  let dest_path := unique_pathT fs (joinPath dest_dir safe_name)
  (fs ++ [dest_path], dest_path)

/-- Archive extraction.  `zread` is the archive collaborator: reading one
entry by name, `none` when reading (or writing) that entry fails, which
the source catches per entry and skips.  Returns the filesystem after
extraction and the list of saved paths. -/
def extract_audio_from_zip (zread : String → Option (List Nat)) (dest_dir : String) :
    List String → List String → List String × List String
  | fs, [] => (fs, [])
  | fs, member :: rest =>
    if strEndsWith member "/" || strStartsWith member "__MACOSX/" then
      extract_audio_from_zip zread dest_dir fs rest
    else
      let name := baseName member
      if name = "" then extract_audio_from_zip zread dest_dir fs rest
      else if ALLOWED_AUDIO_EXTS.any (fun e => strEndsWith (strToLower name) e) then
        match zread member with
        | none => extract_audio_from_zip zread dest_dir fs rest
        | some _ =>
          let dest_path := unique_pathT fs (joinPath dest_dir name)
          let res := extract_audio_from_zip zread dest_dir (fs ++ [dest_path]) rest
          (res.1, dest_path :: res.2)
      else extract_audio_from_zip zread dest_dir fs rest

/-- Scanning the uploads tree: one recursive glob per configured
extension (matching any file below the uploads directory whose name ends
with that extension, byte-for-byte as glob does on a case-sensitive
filesystem), deduplicated through a set of absolute paths and sorted. -/
def scan_uploads_for_audio (fs : List String) : List String :=
  let files := ALLOWED_AUDIO_EXTS.foldl
    (fun acc e =>
      acc ++ fs.filter (fun f => strStartsWith f (UPLOAD_DIR ++ "/") && strEndsWith f e))
    []
  List.insertionSort (fun a b => pyStrLe a b = true) files.dedup

/-- The registration loop of sync_uploads_to_db over an explicit file
list. -/
def syncRegister : List String → List VoiceRow → List VoiceRow × Nat
  | [], db => (db, 0)
  | f :: rest, db =>
    if file_registered_in_db db f then syncRegister rest db
    else
      let res := syncRegister rest (save_voice db (pathStem (baseName f)) f)
      (res.1, res.2 + 1)

def sync_uploads_to_db (fs : List String) (db : List VoiceRow) : List VoiceRow × Nat :=
  syncRegister (scan_uploads_for_audio fs) db

/-! Audio and comparison layer.  `load` is the librosa decoder oracle
(mono signal and native sample rate, `none` when decoding raises);
`mfccOf` is the librosa MFCC oracle, producing the coefficient-by-frame
matrix for a signal, a sample rate, and a coefficient count. -/

/-- Element-wise difference of two vectors, as numpy subtraction of two
equally shaped arrays. -/
noncomputable def vsub (v w : List ℝ) : List ℝ :=
  List.zipWith (fun a b => a - b) v w

/-- Euclidean norm of a vector, as numpy linalg norm. -/
noncomputable def l2norm (v : List ℝ) : ℝ :=
  Real.sqrt ((v.map (fun x => x ^ 2)).sum)

noncomputable def l2dist (v w : List ℝ) : ℝ := l2norm (vsub v w)

/-- Row means of a coefficient-by-frame matrix, as numpy mean over axis 1:
the per-coefficient average across all time frames. -/
noncomputable def rowMeans (m : List (List ℝ)) : List ℝ :=
  m.map (fun row => row.sum / (row.length : ℝ))

/-- Fingerprint extraction (load_mfcc_mean): decode; give up (None) on a
decoding failure or on a signal shorter than 10 samples; otherwise take
the per-coefficient mean of the n_mfcc-coefficient MFCC matrix, with no
further normalisation. -/
noncomputable def load_mfcc_mean (load : String → Option (List ℝ × Nat))
    (mfccOf : List ℝ → Nat → Nat → List (List ℝ)) (path : String) (n_mfcc : Nat) :
    Option (List ℝ) :=
  match load path with
  | none => none
  | some yr =>
    if yr.1.length < 10 then none
    else some (rowMeans (mfccOf yr.1 yr.2 n_mfcc))

/-- Distance between two audio files (compare_voice): extract both
fingerprints with the default coefficient count 20; None if either
extraction failed, otherwise the Euclidean norm of the difference. -/
noncomputable def compare_voice (load : String → Option (List ℝ × Nat))
    (mfccOf : List ℝ → Nat → Nat → List (List ℝ)) (query_path candidate_path : String) :
    Option ℝ :=
  match load_mfcc_mean load mfccOf query_path 20,
        load_mfcc_mean load mfccOf candidate_path 20 with
  | some v1, some v2 => some (l2dist v1 v2)
  | _, _ => none

/-! The Find Data match branch.  The comparison step is abstracted as an
oracle `cmp` (sending the query path and a candidate path to the distance,
or `none` for a failed comparison) over an arbitrary linearly ordered
distance type, so that the ranking pipeline stays executable; the script
instantiates `cmp` with `compare_voice load mfccOf` over the reals.  The
threshold lives in `WithTop` so that an infinite threshold is
representable. -/

inductive MatchMode
  | database
  | uploadsFolder
  | both
deriving DecidableEq

/-- Python dict assignment d[k] = v on an association list in insertion
order: an existing key keeps its position and gets the new value, a new
key is appended. -/
def dictInsert (acc : List (String × String)) (k v : String) : List (String × String) :=
  if acc.any (fun kv => kv.1 == k) then
    acc.map (fun kv => if kv.1 = k then (k, v) else kv)
  else acc ++ [(k, v)]

/-- Folding dict assignments over (name, path) pairs, keyed by path: the
dict comprehension of the match branch starting from a given dict. -/
def dictUpdList (acc : List (String × String)) (pairs : List VoiceRow) :
    List (String × String) :=
  pairs.foldl (fun a nr => dictInsert a nr.2 nr.1) acc

/-- Association-list lookup by key, observing what the Python dict maps a
key to. -/
def dictGet : List (String × String) → String → Option String
  | [], _ => none
  | kv :: rest, k => if kv.1 = k then some kv.2 else dictGet rest k

/-- Candidate assembly of the match branch: start from the catalog rows
when the mode includes the database; when the mode includes the uploads
folder, append the scanned (stem, path) rows and rebuild through a dict
keyed by path, so the later write for a path wins. -/
def candidatesFor (mode : MatchMode) (db : List VoiceRow) (fs : List String) :
    List VoiceRow :=
  let c1 := if mode = MatchMode.database ∨ mode = MatchMode.both then
    get_all_db_rows db else []
  if mode = MatchMode.uploadsFolder ∨ mode = MatchMode.both then
    let folder_rows := (scan_uploads_for_audio fs).map (fun f => (pathStem (baseName f), f))
    (dictUpdList [] (c1 ++ folder_rows)).map (fun kv => (kv.2, kv.1))
  else c1

/-- Distance computation loop of the match branch: one comparison per
candidate, results with a failed comparison silently dropped. -/
def rankResults {D : Type} (cmp : String → String → Option D) (query_path : String)
    (candidates : List VoiceRow) : List (String × String × D) :=
  candidates.filterMap (fun c => (cmp query_path c.2).map (fun d => (c.1, c.2, d)))

/-- Sort, threshold and cut of the match branch: results sorted ascending
by distance (stable), accepted = those within the threshold; show the
first top_k accepted ones, or fall back to the first top_k of the full
sorted list when nothing is accepted. -/
def rank {D : Type} [LinearOrder D] (cmp : String → String → Option D)
    (query_path : String) (candidates : List VoiceRow) (threshold : WithTop D)
    (top_k : Nat) : List (String × String × D) :=
  let results := List.insertionSort (fun a b => a.2.2 ≤ b.2.2)
    (rankResults cmp query_path candidates)
  let accepted := results.filter (fun r => decide ((r.2.2 : WithTop D) ≤ threshold))
  if accepted.isEmpty then results.take top_k else accepted.take top_k

inductive MatchOutcome (D : Type)
  | noCandidates
  | noValidComparisons
  | shown (results : List (String × String × D))

/-- The whole match branch: write the query upload into the uploads
directory, assemble candidates, compare, rank; finally remove the query
file again (the removal in the source sits after the whole branch and runs
on every path through it). -/
def matchBranch {D : Type} [LinearOrder D] (cmp : String → String → Option D)
    (fs : List String) (db : List VoiceRow) (upload_name : String) (mode : MatchMode)
    (threshold : WithTop D) (top_k : Nat) : List String × MatchOutcome D :=
  let saved := save_uploaded_file fs upload_name UPLOAD_DIR
  let fs1 := saved.1
  let query_path := saved.2
  let candidates := candidatesFor mode db fs1
  let outcome :=
    if candidates.isEmpty then MatchOutcome.noCandidates
    else if (rankResults cmp query_path candidates).isEmpty then
      MatchOutcome.noValidComparisons
    else MatchOutcome.shown (rank cmp query_path candidates threshold top_k)
  (fs1.erase query_path, outcome)

/-! Decimal representation round trip, used to show that the numbered
candidates tried by unique_path are pairwise distinct. -/

def digitVal (c : Char) : Nat := c.toNat - 48

def parseDigits (cs : List Char) : Nat :=
  cs.foldl (fun a c => 10 * a + digitVal c) 0

/-- Decimal digit characters of a number, most significant first. -/
def digitsOf (n : Nat) : List Char :=
  if n < 10 then [Nat.digitChar n] else digitsOf (n / 10) ++ [Nat.digitChar (n % 10)]
decreasing_by
  exact Nat.div_lt_self (by omega) (by omega)

/-! Lemmas: decimal representation. -/

theorem digitVal_digitChar : ∀ d, d < 10 → digitVal (Nat.digitChar d) = d := by decide

theorem parseDigits_append (l : List Char) (c : Char) :
    parseDigits (l ++ [c]) = 10 * parseDigits l + digitVal c := by
  simp [parseDigits, List.foldl_append]

theorem parseDigits_digitsOf (n : Nat) : parseDigits (digitsOf n) = n := by
  induction n using Nat.strong_induction_on with
  | _ n ih =>
    by_cases h : n < 10
    · rw [digitsOf, if_pos h]
      show parseDigits [Nat.digitChar n] = n
      simp [parseDigits, digitVal_digitChar n h]
    · rw [digitsOf, if_neg h, parseDigits_append,
        ih (n / 10) (Nat.div_lt_self (by omega) (by omega)),
        digitVal_digitChar (n % 10) (Nat.mod_lt n (by omega))]
      omega

theorem digitsOf_inj (m n : Nat) (h : digitsOf m = digitsOf n) : m = n := by
  have h2 := congrArg parseDigits h
  rwa [parseDigits_digitsOf, parseDigits_digitsOf] at h2

theorem toDigitsCore_append (fuel : Nat) :
    ∀ n ds, Nat.toDigitsCore 10 fuel n ds = Nat.toDigitsCore 10 fuel n [] ++ ds := by
  induction fuel with
  | zero => intro n ds; simp [Nat.toDigitsCore]
  | succ fuel ih =>
    intro n ds
    simp only [Nat.toDigitsCore]
    by_cases h : n / 10 = 0
    · simp [h]
    · simp only [h, if_false]
      rw [ih (n / 10) (Nat.digitChar (n % 10) :: ds),
        ih (n / 10) [Nat.digitChar (n % 10)]]
      simp

theorem toDigitsCore_eq_digitsOf (fuel : Nat) :
    ∀ n, n < fuel → Nat.toDigitsCore 10 fuel n [] = digitsOf n := by
  induction fuel with
  | zero => intro n h; omega
  | succ fuel ih =>
    intro n h
    simp only [Nat.toDigitsCore]
    by_cases h10 : n / 10 = 0
    · have hn : n < 10 := ((Nat.div_eq_zero_iff (by omega)).1 h10)
      rw [if_pos h10, digitsOf, if_pos hn, Nat.mod_eq_of_lt hn]
    · have hge : ¬ n < 10 := fun hlt => h10 (Nat.div_eq_of_lt hlt)
      have hlt : n / 10 < fuel := by
        have := Nat.div_lt_self (show 0 < n by omega) (show 1 < 10 by omega)
        omega
      rw [if_neg h10, toDigitsCore_append]
      conv_rhs => rw [digitsOf]
      rw [if_neg hge, ih (n / 10) hlt]

theorem repr_data (n : Nat) : (Nat.repr n).data = digitsOf n :=
  toDigitsCore_eq_digitsOf (n + 1) n (Nat.lt_succ_self n)

theorem repr_data_inj {m n : Nat} (h : (Nat.repr m).data = (Nat.repr n).data) :
    m = n := by
  rw [repr_data, repr_data] at h
  exact digitsOf_inj m n h

/-! Lemmas: unique_path. -/

theorem mkCand_inj (parent stem e : String) (j k : Nat)
    (h : mkCand parent stem e j = mkCand parent stem e k) : j = k := by
  unfold mkCand joinPath at h
  apply repr_data_inj
  by_cases hp : parent = ""
  · rw [if_pos hp, if_pos hp] at h
    have hd := congrArg String.data h
    simp only [String.data_append, List.append_assoc] at hd
    exact List.append_cancel_right (List.append_cancel_left (List.append_cancel_left hd))
  · rw [if_neg hp, if_neg hp] at h
    have hd := congrArg String.data h
    simp only [String.data_append, List.append_assoc] at hd
    exact List.append_cancel_right
      (List.append_cancel_left (List.append_cancel_left
        (List.append_cancel_left (List.append_cancel_left hd))))

theorem uniquePathAux_some_not_mem (fs : List String) (parent stem e : String) :
    ∀ fuel p counter r, uniquePathAux fs parent stem e fuel p counter = some r →
      r ∉ fs := by
  intro fuel
  induction fuel with
  | zero => intro p counter r h; simp [uniquePathAux] at h
  | succ fuel ih =>
    intro p counter r h
    rw [uniquePathAux] at h
    by_cases hp : p ∈ fs
    · rw [if_pos hp] at h
      exact ih _ _ _ h
    · rw [if_neg hp] at h
      obtain rfl := Option.some.inj h
      exact hp

theorem uniquePathAux_none_mem (fs : List String) (parent stem e : String)
    (fuel : Nat) (p : String) (counter : Nat)
    (h : uniquePathAux fs parent stem e (fuel + 1) p counter = none) : p ∈ fs := by
  rw [uniquePathAux] at h
  by_cases hp : p ∈ fs
  · exact hp
  · rw [if_neg hp] at h
    exact absurd h (by simp)

theorem uniquePathAux_none_all (fs : List String) (parent stem e : String) :
    ∀ fuel p counter, uniquePathAux fs parent stem e fuel p counter = none →
      ∀ i, i + 1 < fuel → mkCand parent stem e (counter + i) ∈ fs := by
  intro fuel
  induction fuel with
  | zero => intro p counter _ i hi; omega
  | succ fuel ih =>
    intro p counter h i hi
    rw [uniquePathAux] at h
    by_cases hp : p ∈ fs
    · rw [if_pos hp] at h
      cases i with
      | zero =>
        cases fuel with
        | zero => omega
        | succ g =>
          have := uniquePathAux_none_mem fs parent stem e g _ _ h
          simpa using this
      | succ i0 =>
        have hmem := ih (mkCand parent stem e counter) (counter + 1) h i0 (by omega)
        have heq : counter + 1 + i0 = counter + (i0 + 1) := by omega
        rwa [heq] at hmem
    · rw [if_neg hp] at h
      exact absurd h (by simp)

theorem unique_path_isSome (fs : List String) (target : String) :
    (unique_path fs target).isSome = true := by
  cases hcase : unique_path fs target with
  | some r => rfl
  | none =>
    exfalso
    rw [unique_path] at hcase
    have hall := uniquePathAux_none_all fs (dirName target) (pathStem (baseName target))
      (pathSuffix (baseName target)) (fs.length + 2) target 1 hcase
    have hsub : ((List.range (fs.length + 1)).map
        (fun i => mkCand (dirName target) (pathStem (baseName target))
          (pathSuffix (baseName target)) (1 + i))) ⊆ fs := by
      intro x hx
      obtain ⟨i, hi, rfl⟩ := List.mem_map.1 hx
      have hi2 : i < fs.length + 1 := List.mem_range.1 hi
      have := hall i (by omega)
      have heq : (1 : Nat) + i = 1 + i := rfl
      simpa [Nat.add_comm] using this
    have hnd : ((List.range (fs.length + 1)).map
        (fun i => mkCand (dirName target) (pathStem (baseName target))
          (pathSuffix (baseName target)) (1 + i))).Nodup := by
      refine List.Nodup.map ?_ (List.nodup_range _)
      intro a b hab
      have := mkCand_inj _ _ _ _ _ hab
      omega
    have hlen := (List.subperm_of_subset hnd hsub).length_le
    simp at hlen

theorem unique_path_eq_some (fs : List String) (target : String) :
    unique_path fs target = some (unique_pathT fs target) := by
  obtain ⟨r, hr⟩ := Option.isSome_iff_exists.1 (unique_path_isSome fs target)
  rw [unique_pathT, hr]
  rfl

theorem unique_pathT_not_mem (fs : List String) (target : String) :
    unique_pathT fs target ∉ fs := by
  have h := unique_path_eq_some fs target
  rw [unique_path] at h
  exact uniquePathAux_some_not_mem fs _ _ _ _ _ _ _ h

theorem uniquePathAux_some_spec (fs : List String) (parent stem e : String) :
    ∀ fuel p counter r, uniquePathAux fs parent stem e fuel p counter = some r →
      r = p ∨ (p ∈ fs ∧ ∃ k, counter ≤ k ∧ r = mkCand parent stem e k ∧
        ∀ j, counter ≤ j → j < k → mkCand parent stem e j ∈ fs) := by
  intro fuel
  induction fuel with
  | zero => intro p counter r h; simp [uniquePathAux] at h
  | succ fuel ih =>
    intro p counter r h
    rw [uniquePathAux] at h
    by_cases hp : p ∈ fs
    · rw [if_pos hp] at h
      right
      refine ⟨hp, ?_⟩
      rcases ih _ _ _ h with hcase | ⟨hmem, k, hk, hr, hall⟩
      · exact ⟨counter, le_refl counter, hcase, fun j h1 h2 => absurd (lt_of_le_of_lt h1 h2) (lt_irrefl counter)⟩
      · refine ⟨k, by omega, hr, fun j h1 h2 => ?_⟩
        rcases Nat.eq_or_lt_of_le h1 with rfl | hgt
        · exact hmem
        · exact hall j (by omega) h2
    · rw [if_neg hp] at h
      left
      exact (Option.some.inj h).symm

theorem unique_pathT_spec (fs : List String) (target : String) :
    unique_pathT fs target = target ∨
      (target ∈ fs ∧ ∃ k, 1 ≤ k ∧
        unique_pathT fs target = mkCand (dirName target) (pathStem (baseName target))
          (pathSuffix (baseName target)) k ∧
        ∀ j, 1 ≤ j → j < k → mkCand (dirName target) (pathStem (baseName target))
          (pathSuffix (baseName target)) j ∈ fs) := by
  have h := unique_path_eq_some fs target
  rw [unique_path] at h
  exact uniquePathAux_some_spec fs _ _ _ _ _ _ _ h

/-- Claim C5: register is idempotent.  For every catalog state and every
name and path, registering a path a second time is a no-op (not an error),
a path not yet present ends up with exactly one catalog row after
registration, and one call grows the catalog by at most one row. -/
theorem save_voice_idempotent (db : List VoiceRow) (n1 n2 p : String) :
    save_voice (save_voice db n1 p) n2 p = save_voice db n1 p ∧
    (db.countP (fun r => r.2 == p) = 0 →
      (save_voice db n1 p).countP (fun r => r.2 == p) = 1) ∧
    (save_voice db n1 p).length ≤ db.length + 1 := by
  refine ⟨?_, ?_, ?_⟩
  · by_cases h : db.any (fun r => r.2 == p)
    · simp [save_voice, h]
    · have h2 : (db ++ [(n1, p)]).any (fun r => r.2 == p) = true := by simp
      simp [save_voice, h, h2]
  · intro h0
    have hany : db.any (fun r => r.2 == p) = false := by
      rw [List.countP_eq_zero] at h0
      simp only [List.any_eq_false]
      exact h0
    rw [save_voice, if_neg (by simp [hany]), List.countP_append, h0]
    simp
  · by_cases h : db.any (fun r => r.2 == p) <;> simp [save_voice, h]

/-- Concrete check for save_voice_idempotent at an empty catalog. -/
theorem save_voice_idempotent_check :
    (save_voice [] "alice" "uploads/alice.wav").countP
      (fun r => r.2 == "uploads/alice.wav") = 1 :=
  (save_voice_idempotent [] "alice" "bob" "uploads/alice.wav").2.1 (by decide)

/-- Claim C6: an ingested plain audio file is stored under its original
base name inside the destination directory when that name is free; when
the name is taken, the stored name is stem_k.ext for some counter k,
every smaller counter having been found taken, and the stored path never
collides with an existing file (no overwrite).  The filesystem gains
exactly the stored file. -/
theorem save_uploaded_file_collision_safe (fs : List String) (upload_name dest_dir : String) :
    (save_uploaded_file fs upload_name dest_dir).2 ∉ fs ∧
    (save_uploaded_file fs upload_name dest_dir).1 =
      fs ++ [(save_uploaded_file fs upload_name dest_dir).2] ∧
    (joinPath dest_dir (baseName upload_name) ∉ fs →
      (save_uploaded_file fs upload_name dest_dir).2 =
        joinPath dest_dir (baseName upload_name)) ∧
    (joinPath dest_dir (baseName upload_name) ∈ fs →
      ∃ k, 1 ≤ k ∧
        (save_uploaded_file fs upload_name dest_dir).2 =
          mkCand (dirName (joinPath dest_dir (baseName upload_name)))
            (pathStem (baseName (joinPath dest_dir (baseName upload_name))))
            (pathSuffix (baseName (joinPath dest_dir (baseName upload_name)))) k ∧
        ∀ j, 1 ≤ j → j < k →
          mkCand (dirName (joinPath dest_dir (baseName upload_name)))
            (pathStem (baseName (joinPath dest_dir (baseName upload_name))))
            (pathSuffix (baseName (joinPath dest_dir (baseName upload_name)))) j ∈ fs) := by
  have hnm : (save_uploaded_file fs upload_name dest_dir).2 ∉ fs :=
    unique_pathT_not_mem fs (joinPath dest_dir (baseName upload_name))
  refine ⟨hnm, rfl, ?_, ?_⟩
  · intro htf
    rcases unique_pathT_spec fs (joinPath dest_dir (baseName upload_name)) with h | ⟨hmem, _⟩
    · exact h
    · exact absurd hmem htf
  · intro htf
    rcases unique_pathT_spec fs (joinPath dest_dir (baseName upload_name)) with h | ⟨_, hk⟩
    · exfalso
      apply hnm
      show unique_pathT fs (joinPath dest_dir (baseName upload_name)) ∈ fs
      rw [h]
      exact htf
    · exact hk

/-- Concrete check for save_uploaded_file_collision_safe: a free name is
kept as is, and a stored path never collides. -/
theorem save_uploaded_file_collision_safe_check :
    (save_uploaded_file ["uploads/b.wav"] "a.wav" UPLOAD_DIR).2 =
      joinPath UPLOAD_DIR (baseName "a.wav") ∧
    (save_uploaded_file ["uploads/a.wav"] "a.wav" UPLOAD_DIR).2 ∉
      (["uploads/a.wav"] : List String) :=
  ⟨(save_uploaded_file_collision_safe ["uploads/b.wav"] "a.wav" UPLOAD_DIR).2.2.1
      (by decide),
    (save_uploaded_file_collision_safe ["uploads/a.wav"] "a.wav" UPLOAD_DIR).1⟩

/-- Claim C8: the temporary query file written for a one-off match is
gone after the match branch completes, whatever the branch taken (no
candidates, no valid comparisons, or results shown): the final filesystem
equals the initial one, and in particular no longer holds the query
file. -/
theorem matchBranch_removes_query {D : Type} [LinearOrder D]
    (cmp : String → String → Option D) (fs : List String) (db : List VoiceRow)
    (upload_name : String) (mode : MatchMode) (threshold : WithTop D) (top_k : Nat) :
    (matchBranch cmp fs db upload_name mode threshold top_k).1 = fs ∧
    (save_uploaded_file fs upload_name UPLOAD_DIR).2 ∉
      (matchBranch cmp fs db upload_name mode threshold top_k).1 := by
  have hq : (save_uploaded_file fs upload_name UPLOAD_DIR).2 ∉ fs :=
    unique_pathT_not_mem fs (joinPath UPLOAD_DIR (baseName upload_name))
  have h1 : (matchBranch cmp fs db upload_name mode threshold top_k).1 =
      ((save_uploaded_file fs upload_name UPLOAD_DIR).1).erase
        (save_uploaded_file fs upload_name UPLOAD_DIR).2 := rfl
  have h2 : (save_uploaded_file fs upload_name UPLOAD_DIR).1 =
      fs ++ [(save_uploaded_file fs upload_name UPLOAD_DIR).2] := rfl
  have h3 : (matchBranch cmp fs db upload_name mode threshold top_k).1 = fs := by
    rw [h1, h2, List.erase_append_right _ hq]
    simp
  refine ⟨h3, ?_⟩
  rw [h3]
  exact hq

/-! Lemmas: Euclidean distance. -/

theorem sq_sum_comm (v : List ℝ) :
    ∀ w, ((vsub v w).map (fun x => x ^ 2)).sum =
      ((vsub w v).map (fun x => x ^ 2)).sum := by
  induction v with
  | nil => intro w; cases w <;> simp [vsub]
  | cons a as ih =>
    intro w
    cases w with
    | nil => simp [vsub]
    | cons b bs =>
      have h1 : vsub (a :: as) (b :: bs) = (a - b) :: vsub as bs := rfl
      have h2 : vsub (b :: bs) (a :: as) = (b - a) :: vsub bs as := rfl
      rw [h1, h2]
      simp only [List.map_cons, List.sum_cons]
      rw [ih bs]
      have h3 : (a - b) ^ 2 = (b - a) ^ 2 := by ring
      rw [h3]

theorem l2dist_comm (v w : List ℝ) : l2dist v w = l2dist w v := by
  rw [l2dist, l2dist, l2norm, l2norm, sq_sum_comm]

theorem l2dist_self (v : List ℝ) : l2dist v v = 0 := by
  have h : ((vsub v v).map (fun x => x ^ 2)).sum = 0 := by
    induction v with
    | nil => simp [vsub]
    | cons a as ih =>
      have h1 : vsub (a :: as) (a :: as) = (a - a) :: vsub as as := rfl
      rw [h1]
      simp only [List.map_cons, List.sum_cons]
      rw [ih]
      ring
  rw [l2dist, l2norm, h, Real.sqrt_zero]

/-- Claim C4: fingerprint extraction yields Absent (None), not an error,
when decoding fails or the decoded signal has fewer than 10 samples; on
success it is exactly the per-coefficient mean over all time frames of the
20-coefficient MFCC matrix, with no further normalisation applied. -/
theorem load_mfcc_mean_spec (load : String → Option (List ℝ × Nat))
    (mfccOf : List ℝ → Nat → Nat → List (List ℝ)) (path : String) :
    (load path = none → load_mfcc_mean load mfccOf path 20 = none) ∧
    (∀ y sr, load path = some (y, sr) → y.length < 10 →
      load_mfcc_mean load mfccOf path 20 = none) ∧
    (∀ y sr, load path = some (y, sr) → ¬ y.length < 10 →
      load_mfcc_mean load mfccOf path 20 = some (rowMeans (mfccOf y sr 20))) := by
  refine ⟨?_, ?_, ?_⟩
  · intro h
    rw [load_mfcc_mean, h]
  · intro y sr h hlen
    rw [load_mfcc_mean, h]
    simp [hlen]
  · intro y sr h hlen
    rw [load_mfcc_mean, h]
    simp [hlen]

/-- Concrete check for load_mfcc_mean_spec: a failed decode, a too-short
signal, and a successful extraction. -/
theorem load_mfcc_mean_spec_check :
    load_mfcc_mean (fun _ => none) (fun _ _ _ => []) "bad.wav" 20 = none ∧
    load_mfcc_mean (fun _ => some ([1, 2, 3], 8000)) (fun _ _ _ => []) "short.wav" 20 =
      none ∧
    load_mfcc_mean (fun _ => some ([0, 0, 0, 0, 0, 0, 0, 0, 0, 0], 8000))
        (fun _ _ _ => [[4], [6]]) "ok.wav" 20 = some (rowMeans [[4], [6]]) :=
  ⟨(load_mfcc_mean_spec (fun _ => none) (fun _ _ _ => []) "bad.wav").1 rfl,
    (load_mfcc_mean_spec (fun _ => some ([1, 2, 3], 8000)) (fun _ _ _ => [])
        "short.wav").2.1 [1, 2, 3] 8000 rfl (by norm_num),
    (load_mfcc_mean_spec (fun _ => some ([0, 0, 0, 0, 0, 0, 0, 0, 0, 0], 8000))
        (fun _ _ _ => [[4], [6]]) "ok.wav").2.2 [0, 0, 0, 0, 0, 0, 0, 0, 0, 0] 8000 rfl
      (by norm_num)⟩

/-- Claim C2: compare is Absent whenever the fingerprint extraction of
either path is Absent (and, being a total function of the oracle outputs,
it never raises); otherwise it is exactly the Euclidean norm of the
difference of the two fingerprint vectors. -/
theorem compare_voice_absent_propagation (load : String → Option (List ℝ × Nat))
    (mfccOf : List ℝ → Nat → Nat → List (List ℝ)) (a b : String) :
    ((load_mfcc_mean load mfccOf a 20 = none ∨ load_mfcc_mean load mfccOf b 20 = none) →
      compare_voice load mfccOf a b = none) ∧
    (∀ v w, load_mfcc_mean load mfccOf a 20 = some v →
      load_mfcc_mean load mfccOf b 20 = some w →
      compare_voice load mfccOf a b = some (l2dist v w)) := by
  constructor
  · intro h
    rw [compare_voice]
    rcases h with h | h
    · rw [h]
    · rw [h]
      cases load_mfcc_mean load mfccOf a 20 <;> rfl
  · intro v w hv hw
    rw [compare_voice, hv, hw]

/-- Concrete check for compare_voice_absent_propagation: a failed
extraction propagates, a successful pair gives the distance. -/
theorem compare_voice_absent_propagation_check :
    compare_voice (fun _ => none) (fun _ _ _ => []) "q.wav" "c.wav" = none ∧
    compare_voice (fun _ => some ([0, 0, 0, 0, 0, 0, 0, 0, 0, 0], 22050))
        (fun _ _ _ => [[1, 2]]) "q.wav" "c.wav" =
      some (l2dist (rowMeans [[1, 2]]) (rowMeans [[1, 2]])) :=
  ⟨(compare_voice_absent_propagation (fun _ => none) (fun _ _ _ => []) "q.wav"
        "c.wav").1 (Or.inl rfl),
    (compare_voice_absent_propagation (fun _ => some ([0, 0, 0, 0, 0, 0, 0, 0, 0, 0], 22050))
        (fun _ _ _ => [[1, 2]]) "q.wav" "c.wav").2 (rowMeans [[1, 2]])
      (rowMeans [[1, 2]]) rfl rfl⟩

/-- Claim C9: compare is symmetric in its two paths, and comparing a
valid audio file with itself gives distance zero. -/
theorem compare_voice_symm_self (load : String → Option (List ℝ × Nat))
    (mfccOf : List ℝ → Nat → Nat → List (List ℝ)) (a b : String) :
    compare_voice load mfccOf a b = compare_voice load mfccOf b a ∧
    (∀ v, load_mfcc_mean load mfccOf a 20 = some v →
      compare_voice load mfccOf a a = some 0) := by
  constructor
  · rw [compare_voice, compare_voice]
    cases load_mfcc_mean load mfccOf a 20 <;>
      cases load_mfcc_mean load mfccOf b 20 <;>
      simp [l2dist_comm]
  · intro v hv
    rw [compare_voice, hv]
    simp [l2dist_self]

/-- Concrete check for compare_voice_symm_self: self distance is zero for
a valid file. -/
theorem compare_voice_symm_self_check :
    compare_voice (fun _ => some ([0, 0, 0, 0, 0, 0, 0, 0, 0, 0], 44100))
      (fun _ _ _ => [[3]]) "a.wav" "a.wav" = some 0 :=
  (compare_voice_symm_self (fun _ => some ([0, 0, 0, 0, 0, 0, 0, 0, 0, 0], 44100))
    (fun _ _ _ => [[3]]) "a.wav" "a.wav").2 (rowMeans [[3]]) rfl

/-- Claim C7: archive extraction skips directory entries and macOS
metadata entries, skips entries whose base name lacks a supported audio
extension (compared case-insensitively), isolates a per-entry read
failure so the remaining entries are still processed, and extracts an
audio entry to a collision-free path produced by the numbered-suffix
rule. -/
theorem extract_audio_from_zip_step (zread : String → Option (List Nat))
    (dest_dir : String) (fs : List String) (member : String) (rest : List String) :
    ((strEndsWith member "/" = true ∨ strStartsWith member "__MACOSX/" = true) →
      extract_audio_from_zip zread dest_dir fs (member :: rest) =
        extract_audio_from_zip zread dest_dir fs rest) ∧
    (ALLOWED_AUDIO_EXTS.any (fun e => strEndsWith (strToLower (baseName member)) e) = false →
      extract_audio_from_zip zread dest_dir fs (member :: rest) =
        extract_audio_from_zip zread dest_dir fs rest) ∧
    (zread member = none →
      extract_audio_from_zip zread dest_dir fs (member :: rest) =
        extract_audio_from_zip zread dest_dir fs rest) ∧
    (∀ bs, strEndsWith member "/" = false → strStartsWith member "__MACOSX/" = false →
      baseName member ≠ "" →
      ALLOWED_AUDIO_EXTS.any (fun e => strEndsWith (strToLower (baseName member)) e) = true →
      zread member = some bs →
      unique_pathT fs (joinPath dest_dir (baseName member)) ∉ fs ∧
      extract_audio_from_zip zread dest_dir fs (member :: rest) =
        ((extract_audio_from_zip zread dest_dir
            (fs ++ [unique_pathT fs (joinPath dest_dir (baseName member))]) rest).1,
          unique_pathT fs (joinPath dest_dir (baseName member)) ::
            (extract_audio_from_zip zread dest_dir
              (fs ++ [unique_pathT fs (joinPath dest_dir (baseName member))]) rest).2)) := by
  refine ⟨?_, ?_, ?_, ?_⟩
  · intro h
    rcases h with h | h <;> simp [extract_audio_from_zip, h]
  · intro h
    by_cases h1 : (strEndsWith member "/" || strStartsWith member "__MACOSX/") = true
    · simp [extract_audio_from_zip, h1]
    · by_cases h2 : baseName member = ""
      · simp [extract_audio_from_zip, h1, h2]
      · simp [extract_audio_from_zip, h1, h2, h]
  · intro h
    by_cases h1 : (strEndsWith member "/" || strStartsWith member "__MACOSX/") = true
    · simp [extract_audio_from_zip, h1]
    · by_cases h2 : baseName member = ""
      · simp [extract_audio_from_zip, h1, h2]
      · by_cases h3 : ALLOWED_AUDIO_EXTS.any
            (fun e => strEndsWith (strToLower (baseName member)) e) = true
        · simp [extract_audio_from_zip, h1, h2, h3, h]
        · simp [extract_audio_from_zip, h1, h2, h3]
  · intro bs h1 h2 h3 h4 h5
    refine ⟨unique_pathT_not_mem fs (joinPath dest_dir (baseName member)), ?_⟩
    simp [extract_audio_from_zip, h1, h2, h3, h4, h5]

/-- Concrete check for extract_audio_from_zip_step: a directory entry, a
metadata entry, a non-audio entry, a failing read, and a successful
extraction. -/
theorem extract_audio_from_zip_step_check :
    (extract_audio_from_zip (fun _ => some [7]) "uploads" [] ["voices/"] =
      extract_audio_from_zip (fun _ => some [7]) "uploads" [] []) ∧
    (extract_audio_from_zip (fun _ => some [7]) "uploads" [] ["__MACOSX/x.wav"] =
      extract_audio_from_zip (fun _ => some [7]) "uploads" [] []) ∧
    (extract_audio_from_zip (fun _ => some [7]) "uploads" [] ["readme.txt"] =
      extract_audio_from_zip (fun _ => some [7]) "uploads" [] []) ∧
    (extract_audio_from_zip (fun _ => none) "uploads" [] ["bob.mp3"] =
      extract_audio_from_zip (fun _ => none) "uploads" [] []) ∧
    (unique_pathT [] (joinPath "uploads" (baseName "bob.mp3")) ∉ ([] : List String) ∧
      extract_audio_from_zip (fun _ => some [7]) "uploads" [] ["bob.mp3"] =
        ((extract_audio_from_zip (fun _ => some [7]) "uploads"
            ([] ++ [unique_pathT [] (joinPath "uploads" (baseName "bob.mp3"))]) []).1,
          unique_pathT [] (joinPath "uploads" (baseName "bob.mp3")) ::
            (extract_audio_from_zip (fun _ => some [7]) "uploads"
              ([] ++ [unique_pathT [] (joinPath "uploads" (baseName "bob.mp3"))]) []).2)) :=
  ⟨(extract_audio_from_zip_step (fun _ => some [7]) "uploads" [] "voices/" []).1
      (Or.inl (by decide)),
    (extract_audio_from_zip_step (fun _ => some [7]) "uploads" [] "__MACOSX/x.wav" []).1
      (Or.inr (by decide)),
    (extract_audio_from_zip_step (fun _ => some [7]) "uploads" [] "readme.txt" []).2.1
      (by decide),
    (extract_audio_from_zip_step (fun _ => none) "uploads" [] "bob.mp3" []).2.2.1 rfl,
    (extract_audio_from_zip_step (fun _ => some [7]) "uploads" [] "bob.mp3" []).2.2.2 [7]
      (by decide) (by decide) (by decide) (by decide) rfl⟩

/-! Lemmas: uploads scan and catalog sync. -/

theorem mem_scanFold (fs : List String) (f : String) (exts : List String) :
    ∀ acc, (f ∈ exts.foldl
        (fun acc e =>
          acc ++ fs.filter
            (fun g => strStartsWith g (UPLOAD_DIR ++ "/") && strEndsWith g e)) acc ↔
      f ∈ acc ∨ ∃ e ∈ exts, f ∈ fs ∧
        (strStartsWith f (UPLOAD_DIR ++ "/") && strEndsWith f e) = true) := by
  induction exts with
  | nil => intro acc; simp
  | cons e0 es ih =>
    intro acc
    rw [List.foldl_cons, ih]
    simp [List.mem_append, List.mem_filter]
    tauto

theorem mem_scan (fs : List String) (f : String) :
    f ∈ scan_uploads_for_audio fs ↔
      f ∈ fs ∧ strStartsWith f (UPLOAD_DIR ++ "/") = true ∧
        ALLOWED_AUDIO_EXTS.any (fun e => strEndsWith f e) = true := by
  rw [scan_uploads_for_audio]
  rw [List.Perm.mem_iff (List.perm_insertionSort _ _), List.mem_dedup, mem_scanFold]
  simp [List.any_eq_true, Bool.and_eq_true]
  tauto

theorem scan_nodup (fs : List String) : (scan_uploads_for_audio fs).Nodup := by
  rw [scan_uploads_for_audio]
  exact ((List.perm_insertionSort _ _).symm).nodup (List.nodup_dedup _)

theorem syncRegister_countP_notmem (f : String) :
    ∀ (files : List String) (db : List VoiceRow), f ∉ files →
      (syncRegister files db).1.countP (fun r => r.2 == f) =
        db.countP (fun r => r.2 == f) := by
  intro files
  induction files with
  | nil => intro db _; rfl
  | cons g rest ih =>
    intro db h
    have hg : g ≠ f := fun e => h (e ▸ List.mem_cons_self g rest)
    have hf : f ∉ rest := fun e => h (List.mem_cons_of_mem g e)
    rw [syncRegister]
    by_cases hreg : file_registered_in_db db g
    · rw [if_pos hreg]
      exact ih db hf
    · rw [if_neg hreg]
      show (syncRegister rest (save_voice db (pathStem (baseName g)) g)).1.countP _ = _
      rw [ih _ hf, save_voice]
      by_cases hany : db.any (fun r => r.2 == g)
      · rw [if_pos hany]
      · rw [if_neg hany, List.countP_append]
        simp [List.countP_cons, hg]

theorem syncRegister_countP_mem (f : String) :
    ∀ (files : List String) (db : List VoiceRow), files.Nodup → f ∈ files →
      db.countP (fun r => r.2 == f) ≤ 1 →
      (syncRegister files db).1.countP (fun r => r.2 == f) = 1 := by
  intro files
  induction files with
  | nil => intro db _ h; cases h
  | cons g rest ih =>
    intro db hnd hmem hle
    rw [syncRegister]
    rcases List.mem_cons.1 hmem with rfl | hmem2
    · have hnotrest : f ∉ rest := (List.nodup_cons.1 hnd).1
      by_cases hreg : file_registered_in_db db f
      · rw [if_pos hreg, syncRegister_countP_notmem f rest db hnotrest]
        rw [file_registered_in_db, List.any_eq_true] at hreg
        obtain ⟨r, hr, hrf⟩ := hreg
        have hpos : 0 < db.countP (fun r => r.2 == f) :=
          List.countP_pos_iff.2 ⟨r, hr, hrf⟩
        omega
      · rw [if_neg hreg]
        show (syncRegister rest (save_voice db (pathStem (baseName f)) f)).1.countP _ = 1
        rw [syncRegister_countP_notmem f rest _ hnotrest]
        rw [file_registered_in_db, Bool.not_eq_true] at hreg
        have h0 : db.countP (fun r => r.2 == f) = 0 := by
          rw [List.countP_eq_zero]
          intro a ha hpa
          have : db.any (fun r => r.2 == f) = true := List.any_eq_true.2 ⟨a, ha, hpa⟩
          rw [hreg] at this
          cases this
        rw [save_voice, if_neg (by simp [hreg]), List.countP_append, h0]
        simp
    · have hgf : g ≠ f := by
        intro e
        subst e
        exact (List.nodup_cons.1 hnd).1 hmem2
      have hrestnd : rest.Nodup := (List.nodup_cons.1 hnd).2
      by_cases hreg : file_registered_in_db db g
      · rw [if_pos hreg]
        exact ih db hrestnd hmem2 hle
      · rw [if_neg hreg]
        show (syncRegister rest (save_voice db (pathStem (baseName g)) g)).1.countP _ = 1
        apply ih _ hrestnd hmem2
        rw [save_voice]
        by_cases hany : db.any (fun r => r.2 == g)
        · rw [if_pos hany]
          exact hle
        · rw [if_neg hany, List.countP_append]
          simpa [List.countP_cons, hgf] using hle

theorem syncRegister_mono (r : VoiceRow) :
    ∀ (files : List String) (db : List VoiceRow), r ∈ db →
      r ∈ (syncRegister files db).1 := by
  intro files
  induction files with
  | nil => intro db h; exact h
  | cons g rest ih =>
    intro db h
    rw [syncRegister]
    by_cases hreg : file_registered_in_db db g
    · rw [if_pos hreg]
      exact ih db h
    · rw [if_neg hreg]
      show r ∈ (syncRegister rest (save_voice db (pathStem (baseName g)) g)).1
      apply ih
      rw [save_voice]
      by_cases hany : db.any (fun x => x.2 == g)
      · rw [if_pos hany]
        exact h
      · rw [if_neg hany]
        exact List.mem_append_left _ h

theorem syncRegister_row (f : String) :
    ∀ (files : List String) (db : List VoiceRow), files.Nodup → f ∈ files →
      db.countP (fun r => r.2 == f) = 0 →
      (pathStem (baseName f), f) ∈ (syncRegister files db).1 := by
  intro files
  induction files with
  | nil => intro db _ h; cases h
  | cons g rest ih =>
    intro db hnd hmem h0
    rw [syncRegister]
    rcases List.mem_cons.1 hmem with rfl | hmem2
    · have hreg : ¬ file_registered_in_db db f = true := by
        rw [file_registered_in_db, List.any_eq_true]
        rintro ⟨r, hr, hrf⟩
        have hpos : 0 < db.countP (fun r => r.2 == f) := List.countP_pos_iff.2 ⟨r, hr, hrf⟩
        omega
      rw [if_neg hreg]
      show (pathStem (baseName f), f) ∈
        (syncRegister rest (save_voice db (pathStem (baseName f)) f)).1
      apply syncRegister_mono
      rw [save_voice, if_neg (by simpa [file_registered_in_db] using hreg)]
      exact List.mem_append_right _ (List.mem_singleton.2 rfl)
    · have hgf : g ≠ f := by
        intro e
        subst e
        exact (List.nodup_cons.1 hnd).1 hmem2
      have hrestnd : rest.Nodup := (List.nodup_cons.1 hnd).2
      by_cases hreg : file_registered_in_db db g
      · rw [if_pos hreg]
        exact ih db hrestnd hmem2 h0
      · rw [if_neg hreg]
        show (pathStem (baseName f), f) ∈
          (syncRegister rest (save_voice db (pathStem (baseName g)) g)).1
        apply ih _ hrestnd hmem2
        rw [save_voice]
        by_cases hany : db.any (fun x => x.2 == g)
        · rw [if_pos hany]
          exact h0
        · rw [if_neg hany, List.countP_append, h0]
          simp [List.countP_cons, hgf]

/-- Claim C3 counterexample: the claim as stated fails on the code for
the file uploads/A.WAV.  Its extension belongs to the supported set when
compared case-insensitively, and it lies under the managed directory, yet
reconcile registers no catalog row for it, because the scan matches the
lower-case extension patterns byte-for-byte. -/
theorem sync_uploads_case_insensitive_fails :
    ALLOWED_AUDIO_EXTS.any
        (fun e => strEndsWith (strToLower (baseName "uploads/A.WAV")) e) = true ∧
    strStartsWith "uploads/A.WAV" (UPLOAD_DIR ++ "/") = true ∧
    (sync_uploads_to_db ["uploads/A.WAV"] []).1.countP
      (fun r => r.2 == "uploads/A.WAV") = 0 := by
  refine ⟨by decide, by decide, by decide⟩

/-- Claim C3 (amended): reconcile registers, for every file under the
managed directory whose name ends with one of the (lower-case) supported
extensions compared case-sensitively, exactly one catalog row if none
exists yet, using the file base name without extension as the display
name; after reconcile every such file has exactly one catalog row.  The
bound on the initial catalog is the UNIQUE constraint of the filename
column. -/
theorem sync_uploads_registers_each_file (fs : List String) (db : List VoiceRow)
    (f : String) (hdb : db.countP (fun r => r.2 == f) ≤ 1) (hmem : f ∈ fs)
    (hpre : strStartsWith f (UPLOAD_DIR ++ "/") = true)
    (hext : ALLOWED_AUDIO_EXTS.any (fun e => strEndsWith f e) = true) :
    (sync_uploads_to_db fs db).1.countP (fun r => r.2 == f) = 1 ∧
    (db.countP (fun r => r.2 == f) = 0 →
      (pathStem (baseName f), f) ∈ (sync_uploads_to_db fs db).1) := by
  have hscan : f ∈ scan_uploads_for_audio fs := (mem_scan fs f).2 ⟨hmem, hpre, hext⟩
  exact ⟨syncRegister_countP_mem f _ db (scan_nodup fs) hscan hdb,
    fun h0 => syncRegister_row f _ db (scan_nodup fs) hscan h0⟩

/-- Concrete check for sync_uploads_registers_each_file: one lower-case
audio file in the uploads directory and an empty catalog. -/
theorem sync_uploads_registers_each_file_check :
    (sync_uploads_to_db ["uploads/a.wav"] []).1.countP
      (fun r => r.2 == "uploads/a.wav") = 1 :=
  (sync_uploads_registers_each_file ["uploads/a.wav"] [] "uploads/a.wav" (by decide)
    (by decide) (by decide) (by decide)).1

/-! Lemmas: the last-write-wins dict of the candidate merge. -/

theorem dictGet_map_replace (k v : String) :
    ∀ acc : List (String × String), acc.any (fun kv => kv.1 == k) = true →
      dictGet (acc.map (fun kv => if kv.1 = k then (k, v) else kv)) k = some v := by
  intro acc
  induction acc with
  | nil => intro h; cases h
  | cons a rest ih =>
    intro h
    by_cases ha : a.1 = k
    · simp [dictGet, ha]
    · have h2 : rest.any (fun kv => kv.1 == k) = true := by
        rcases List.any_eq_true.1 h with ⟨x, hx, hxk⟩
        rcases List.mem_cons.1 hx with rfl | hx2
        · exact absurd (by simpa using hxk) ha
        · exact List.any_eq_true.2 ⟨x, hx2, hxk⟩
      simpa [dictGet, ha] using ih h2

theorem dictGet_append_self (k v : String) :
    ∀ acc : List (String × String), acc.any (fun kv => kv.1 == k) = false →
      dictGet (acc ++ [(k, v)]) k = some v := by
  intro acc
  induction acc with
  | nil => intro _; simp [dictGet]
  | cons a rest ih =>
    intro h
    rw [List.any_cons, Bool.or_eq_false_iff] at h
    have ha : ¬ a.1 = k := by simpa using h.1
    simpa [dictGet, ha] using ih h.2

theorem dictGet_dictInsert_self (acc : List (String × String)) (k v : String) :
    dictGet (dictInsert acc k v) k = some v := by
  rw [dictInsert]
  by_cases h : acc.any (fun kv => kv.1 == k) = true
  · rw [if_pos h]
    exact dictGet_map_replace k v acc h
  · rw [if_neg h]
    exact dictGet_append_self k v acc (Bool.eq_false_iff.2 h)

theorem dictGet_map_replace_other (k v q : String) (hkq : k ≠ q) :
    ∀ acc : List (String × String),
      dictGet (acc.map (fun kv => if kv.1 = k then (k, v) else kv)) q = dictGet acc q := by
  intro acc
  induction acc with
  | nil => rfl
  | cons a rest ih =>
    by_cases ha : a.1 = k
    · have haq : ¬ a.1 = q := fun e => hkq (ha ▸ e)
      simp [dictGet, ha, hkq, haq, ih]
    · by_cases haq : a.1 = q
      · simp [dictGet, ha, haq, Ne.symm hkq]
      · simp [dictGet, ha, haq, ih]

theorem dictGet_append_other (k v q : String) (hkq : k ≠ q) :
    ∀ acc : List (String × String), dictGet (acc ++ [(k, v)]) q = dictGet acc q := by
  intro acc
  induction acc with
  | nil => simp [dictGet, hkq]
  | cons a rest ih =>
    by_cases haq : a.1 = q
    · simp [dictGet, haq]
    · simp [dictGet, haq, ih]

theorem dictGet_dictInsert_other (acc : List (String × String)) (k v q : String)
    (hkq : k ≠ q) : dictGet (dictInsert acc k v) q = dictGet acc q := by
  rw [dictInsert]
  by_cases h : acc.any (fun kv => kv.1 == k) = true
  · rw [if_pos h]
    exact dictGet_map_replace_other k v q hkq acc
  · rw [if_neg h]
    exact dictGet_append_other k v q hkq acc

theorem dictUpdList_append (acc : List (String × String)) (xs ys : List VoiceRow) :
    dictUpdList acc (xs ++ ys) = dictUpdList (dictUpdList acc xs) ys :=
  List.foldl_append _ _ _ _

theorem dictGet_dictUpdList_no_key (q : String) :
    ∀ (pairs : List VoiceRow) (acc : List (String × String)),
      (∀ nr ∈ pairs, nr.2 ≠ q) →
      dictGet (dictUpdList acc pairs) q = dictGet acc q := by
  intro pairs
  induction pairs with
  | nil => intro acc _; rfl
  | cons nr rest ih =>
    intro acc h
    have h1 : nr.2 ≠ q := h nr (List.mem_cons_self nr rest)
    have h2 : ∀ x ∈ rest, x.2 ≠ q := fun x hx => h x (List.mem_cons_of_mem nr hx)
    show dictGet (dictUpdList (dictInsert acc nr.2 nr.1) rest) q = dictGet acc q
    rw [ih _ h2]
    exact dictGet_dictInsert_other acc nr.2 nr.1 q h1

theorem dictInsert_keys_nodup (acc : List (String × String)) (k v : String)
    (h : (acc.map Prod.fst).Nodup) : ((dictInsert acc k v).map Prod.fst).Nodup := by
  rw [dictInsert]
  by_cases hany : acc.any (fun kv => kv.1 == k) = true
  · rw [if_pos hany]
    have heq : (acc.map (fun kv => if kv.1 = k then (k, v) else kv)).map Prod.fst =
        acc.map Prod.fst := by
      rw [List.map_map]
      apply List.map_congr_left
      intro kv _
      by_cases hk : kv.1 = k
      · simp [hk]
      · simp [hk]
    rw [heq]
    exact h
  · rw [if_neg hany]
    have hnk : k ∉ acc.map Prod.fst := by
      intro hk
      obtain ⟨kv, hkv, hkv1⟩ := List.mem_map.1 hk
      have : acc.any (fun x => x.1 == k) = true :=
        List.any_eq_true.2 ⟨kv, hkv, by simp [hkv1]⟩
      exact hany this
    simp [List.nodup_append, h, hnk]

theorem dictUpdList_keys_nodup :
    ∀ (pairs : List VoiceRow) (acc : List (String × String)),
      (acc.map Prod.fst).Nodup → ((dictUpdList acc pairs).map Prod.fst).Nodup := by
  intro pairs
  induction pairs with
  | nil => intro acc h; exact h
  | cons nr rest ih =>
    intro acc h
    exact ih _ (dictInsert_keys_nodup acc nr.2 nr.1 h)

theorem dictGet_eq_some_of_mem :
    ∀ acc : List (String × String), (acc.map Prod.fst).Nodup →
      ∀ kv, kv ∈ acc → dictGet acc kv.1 = some kv.2 := by
  intro acc
  induction acc with
  | nil => intro _ kv h; cases h
  | cons a rest ih =>
    intro hnd kv hkv
    rcases List.mem_cons.1 hkv with rfl | hkv2
    · simp [dictGet]
    · have ha : ¬ a.1 = kv.1 := by
        intro e
        apply (List.nodup_cons.1 hnd).1
        rw [e]
        exact List.mem_map.2 ⟨kv, hkv2, rfl⟩
      simpa [dictGet, ha] using ih (List.nodup_cons.1 hnd).2 kv hkv2

theorem mem_of_dictGet :
    ∀ (acc : List (String × String)) (q v : String),
      dictGet acc q = some v → (q, v) ∈ acc := by
  intro acc
  induction acc with
  | nil => intro q v h; cases h
  | cons a rest ih =>
    intro q v h
    by_cases ha : a.1 = q
    · rw [dictGet, if_pos ha] at h
      have hv : a.2 = v := Option.some.inj h
      have : a = (q, v) := Prod.ext ha hv
      rw [← this]
      exact List.mem_cons_self a rest
    · rw [dictGet, if_neg ha] at h
      exact List.mem_cons_of_mem a (ih q v h)

/-- Claim C10: in match mode Both, when a path occurs both as a catalog
row and in the filesystem scan, the candidate set keeps the
filesystem-derived name (the file base name without extension): the
filesystem rows are folded into the path-keyed dict after the catalog
rows, so their write wins.  The scanned path appears in the assembled
candidate set with that name, and with no other name. -/
theorem candidates_both_prefers_filesystem_name (db : List VoiceRow)
    (fs : List String) (p : String) (hscan : p ∈ scan_uploads_for_audio fs) :
    (pathStem (baseName p), p) ∈ candidatesFor MatchMode.both db fs ∧
    ∀ n, (n, p) ∈ candidatesFor MatchMode.both db fs → n = pathStem (baseName p) := by
  have hc : candidatesFor MatchMode.both db fs =
      (dictUpdList [] (db ++ (scan_uploads_for_audio fs).map
        (fun f => (pathStem (baseName f), f)))).map (fun kv => (kv.2, kv.1)) := rfl
  have hkeys : ((dictUpdList [] (db ++ (scan_uploads_for_audio fs).map
      (fun f => (pathStem (baseName f), f)))).map Prod.fst).Nodup :=
    dictUpdList_keys_nodup _ [] (by simp)
  obtain ⟨s1, s2, hsplit⟩ := List.append_of_mem hscan
  have hnd := scan_nodup fs
  rw [hsplit] at hnd
  have hps2 : p ∉ s2 := (List.nodup_cons.1 (List.Nodup.of_append_right hnd)).1
  have hget : dictGet (dictUpdList [] (db ++ (scan_uploads_for_audio fs).map
      (fun f => (pathStem (baseName f), f)))) p = some (pathStem (baseName p)) := by
    rw [hsplit, List.map_append, List.map_cons]
    have hre : db ++ (s1.map (fun f => (pathStem (baseName f), f)) ++
        (pathStem (baseName p), p) :: s2.map (fun f => (pathStem (baseName f), f))) =
        (db ++ s1.map (fun f => (pathStem (baseName f), f)) ++
          [(pathStem (baseName p), p)]) ++ s2.map (fun f => (pathStem (baseName f), f)) := by
      simp
    rw [hre, dictUpdList_append, dictUpdList_append]
    rw [dictGet_dictUpdList_no_key p _ _ ?hkey]
    case hkey =>
      intro nr hnr
      obtain ⟨g, hg, rfl⟩ := List.mem_map.1 hnr
      intro hgp
      exact hps2 (hgp ▸ hg)
    show dictGet (dictUpdList (dictUpdList []
      (db ++ s1.map (fun f => (pathStem (baseName f), f))))
        [(pathStem (baseName p), p)]) p = some (pathStem (baseName p))
    rw [dictUpdList]
    simp only [List.foldl_cons, List.foldl_nil]
    exact dictGet_dictInsert_self _ p (pathStem (baseName p))
  constructor
  · rw [hc]
    exact List.mem_map.2 ⟨(p, pathStem (baseName p)), mem_of_dictGet _ _ _ hget, rfl⟩
  · intro n hn
    rw [hc] at hn
    obtain ⟨kv, hkv, heq⟩ := List.mem_map.1 hn
    have hk1 : kv.1 = p := congrArg Prod.snd heq
    have hk2 : kv.2 = n := congrArg Prod.fst heq
    have hsome := dictGet_eq_some_of_mem _ hkeys kv hkv
    rw [hk1, hk2, hget] at hsome
    exact (Option.some.inj hsome).symm

/-- Concrete check for candidates_both_prefers_filesystem_name: a path
registered under the catalog name Alice and present on disk keeps its
filesystem-derived name in the merged candidate set. -/
theorem candidates_both_prefers_filesystem_name_check :
    (pathStem (baseName "uploads/a.wav"), "uploads/a.wav") ∈
      candidatesFor MatchMode.both [("Alice", "uploads/a.wav")] ["uploads/a.wav"] :=
  (candidates_both_prefers_filesystem_name [("Alice", "uploads/a.wav")]
    ["uploads/a.wav"] "uploads/a.wav" (by decide)).1

/-- Claim C1: rank computes one distance per candidate through the
comparison oracle and drops the Absent ones (rankResults), sorts
non-decreasing by distance, and shows the first top_k of the accepted
subset (distance within the threshold) when that subset is non-empty,
otherwise the first top_k of the full sorted list; every shown result
carries a candidate of the set together with its computed distance; and
with an infinite threshold exactly min(top_k, number of valid
comparisons) results are returned. -/
theorem rank_spec {D : Type} [LinearOrder D] (cmp : String → String → Option D)
    (query_path : String) (candidates : List VoiceRow) (threshold : WithTop D)
    (top_k : Nat) :
    rank cmp query_path candidates threshold top_k =
      (if (List.filter (fun r => decide ((r.2.2 : WithTop D) ≤ threshold))
          (List.insertionSort (fun a b => a.2.2 ≤ b.2.2)
            (rankResults cmp query_path candidates))).isEmpty then
        (List.insertionSort (fun a b => a.2.2 ≤ b.2.2)
          (rankResults cmp query_path candidates)).take top_k
      else
        (List.filter (fun r => decide ((r.2.2 : WithTop D) ≤ threshold))
          (List.insertionSort (fun a b => a.2.2 ≤ b.2.2)
            (rankResults cmp query_path candidates))).take top_k) ∧
    List.Pairwise (fun a b : String × String × D => a.2.2 ≤ b.2.2)
      (rank cmp query_path candidates threshold top_k) ∧
    (∀ r ∈ rank cmp query_path candidates threshold top_k,
      (r.1, r.2.1) ∈ candidates ∧ cmp query_path r.2.1 = some r.2.2) ∧
    (rank cmp query_path candidates ⊤ top_k).length =
      min top_k (rankResults cmp query_path candidates).length := by
  haveI : IsTotal (String × String × D) (fun a b : String × String × D => a.2.2 ≤ b.2.2) :=
    ⟨fun a b => le_total _ _⟩
  haveI : IsTrans (String × String × D) (fun a b : String × String × D => a.2.2 ≤ b.2.2) :=
    ⟨fun a b c => le_trans⟩
  have hsorted : List.Pairwise (fun a b : String × String × D => a.2.2 ≤ b.2.2)
      (List.insertionSort (fun a b => a.2.2 ≤ b.2.2)
        (rankResults cmp query_path candidates)) :=
    List.sorted_insertionSort _ _
  have hsub : rank cmp query_path candidates threshold top_k |>.Sublist
      (List.insertionSort (fun a b => a.2.2 ≤ b.2.2)
        (rankResults cmp query_path candidates)) := by
    rw [rank]
    split
    · exact List.take_sublist _ _
    · exact (List.take_sublist _ _).trans (List.filter_sublist _)
  refine ⟨rfl, ?_, ?_, ?_⟩
  · exact List.Pairwise.sublist hsub hsorted
  · intro r hr
    have hr2 : r ∈ List.insertionSort (fun a b => a.2.2 ≤ b.2.2)
        (rankResults cmp query_path candidates) := hsub.subset hr
    have hr3 : r ∈ rankResults cmp query_path candidates :=
      (List.perm_insertionSort _ _).mem_iff.1 hr2
    obtain ⟨c, hc, hmap⟩ := List.mem_filterMap.1 hr3
    cases hcmp : cmp query_path c.2 with
    | none => rw [hcmp] at hmap; cases hmap
    | some d =>
      rw [hcmp] at hmap
      have hr4 : (c.1, c.2, d) = r := Option.some.inj hmap
      have h1 : r.1 = c.1 := by rw [← hr4]
      have h2 : r.2.1 = c.2 := by rw [← hr4]
      have h3 : r.2.2 = d := by rw [← hr4]
      constructor
      · rw [h1, h2]
        simpa using hc
      · rw [h2, h3]
        exact hcmp
  · have hfilter : List.filter
        (fun r : String × String × D => decide ((r.2.2 : WithTop D) ≤ (⊤ : WithTop D)))
        (List.insertionSort (fun a b => a.2.2 ≤ b.2.2)
          (rankResults cmp query_path candidates)) =
        List.insertionSort (fun a b => a.2.2 ≤ b.2.2)
          (rankResults cmp query_path candidates) :=
      List.filter_eq_self.2 (fun a _ => by simp)
    rw [rank]
    simp only [hfilter]
    rw [ite_self, List.length_take,
      (List.perm_insertionSort (fun a b : String × String × D => a.2.2 ≤ b.2.2)
        (rankResults cmp query_path candidates)).length_eq]

/-- Concrete check for rank_spec over rational distances: a shown result
is a candidate with its computed distance. -/
theorem rank_spec_check :
    ("a", "uploads/a.wav") ∈ [(("a" : String), ("uploads/a.wav" : String))] ∧
    (fun _ _ => some (5 : ℚ)) "q.wav" "uploads/a.wav" = some ((5 : ℚ)) :=
  (rank_spec (fun _ _ => some (5 : ℚ)) "q.wav" [("a", "uploads/a.wav")] ⊤ 3).2.2.1
    ("a", "uploads/a.wav", 5) (by decide)

/-- Concrete check for matchBranch_removes_query: after a Both-mode match
the uploads directory is back to its initial content. -/
theorem matchBranch_removes_query_check :
    (matchBranch (fun _ _ => some (1 : ℚ)) ["uploads/a.wav"] [("a", "uploads/a.wav")]
      "q.wav" MatchMode.both ⊤ 3).1 = ["uploads/a.wav"] :=
  (matchBranch_removes_query (fun _ _ => some (1 : ℚ)) ["uploads/a.wav"]
    [("a", "uploads/a.wav")] "q.wav" MatchMode.both ⊤ 3).1
